import Mathlib

/-!
Verification of the per-node materialized-state abstraction
(`server/dataflow/src/state/mod.rs`).

The source file under verification contains the `State` trait, the shared
`Row` handle, the `Rows` multiset alias, and the `RecordResult` /
`LookupResult` read-result types.  The concrete engines (`memory_state`,
`persistent_state`, `keyed_state`, `single_state`) are declared as modules
but their code is not part of the sources available here, so the
operational behaviour of the `State` operations is modelled from the
specification (each such definition carries a doc comment starting with
`Modelled from the spec:`).  Everything about `Row`, `Rows`,
`RecordResult` and `LookupResult` is embedded directly from the source.
-/

/-- Value atom stored in a row cell (`DataType` in the source).  The real
type is an opaque, totally ordered, hashable cell type; a two-constructor
stand-in with integers and strings is enough for every property below,
since all operations treat atoms abstractly via equality. -/
inductive DataType where
  | int (i : Int)
  | text (s : String)
deriving DecidableEq, Repr

/-- A stored tuple, as plain contents (`Vec<DataType>` in the source). -/
abbrev RowT := List DataType

/-- A key tuple (`KeyType` collapses to the extracted key values). -/
abbrev KeyT := List DataType

/-- Replay-path tag (`Tag` is an opaque identifier in the source). -/
abbrev Tag := Nat

/-- Modelled from the spec: the key-extraction collaborator (`mk_key`
module, not in the sources) derives the key tuple for an index from the
row by projecting the index's column positions. -/
def proj (cols : List Nat) (r : RowT) : KeyT :=
  cols.map (fun c => r.getD c (DataType.int 0))

/-- `Row(Rc<Vec<DataType>>)`: a shared handle to an immutable tuple.
`rcId` models the allocation identity of the `Rc` (the pointer); `val`
models the pointed-to tuple.  Two clones of one `Rc` share `rcId` and
hence `val`. -/
structure Row where
  rcId : Nat
  val : RowT
deriving DecidableEq, Repr

/-- The `#[derive(PartialEq)]` on `Row` compares the single `Rc` field,
and `PartialEq for Rc<T>` compares the pointed-to values: equality is
over tuple contents, never over the handle identity. -/
def rowEq (a b : Row) : Bool := a.val == b.val

/-- `Rows = HashBag<Row, RandomState>` is a multiset of `Row` compared by
content; `contains`-style counting returns the multiplicity of handles
content-equal to the query. -/
def rowsCount (rs : List Row) (x : Row) : Nat :=
  rs.countP (fun r => rowEq r x)

/-- `size_of::<Row>()`: the fixed byte size of the handle struct (one
`Rc` pointer on a 64-bit target). -/
def rowHandleSize : Nat := 8

/-- `SizeOf::size_of for Row` returns `size_of::<Self>()`: a constant,
independent of the wrapped tuple. -/
def Row.size_of (_ : Row) : Nat := rowHandleSize

/-- Modelled from the spec: the recursive content size of one value atom
(`common::SizeOf` for `DataType` is not in the sources).  Inline cell
cost plus heap payload for strings. -/
def DataType.heapSize : DataType → Nat
  | .int _ => 0
  | .text s => s.length

/-- Modelled from the spec: recursive content size of a tuple
(`Vec<DataType>::deep_size_of`): per-cell inline storage plus each
cell's heap payload. -/
def tupleDeepSize (l : RowT) : Nat :=
  16 * l.length + (l.map DataType.heapSize).sum

/-- `SizeOf::deep_size_of for Row` returns `(*self.0).deep_size_of()`:
the recursive content size of the wrapped tuple. -/
def Row.deep_size_of (r : Row) : Nat := tupleDeepSize r.val

/-- `SizeOf::is_empty for Row` always returns `false`. -/
def Row.is_empty (_ : Row) : Bool := false

/-- Memory accounting for one stored tuple: handle plus payload.  Used by
the eviction model to report bytes freed. -/
def rowBytes (r : RowT) : Nat := rowHandleSize + tupleDeepSize r

/-- Total bytes of a list of stored tuples. -/
def sumBytes (l : List RowT) : Nat := (l.map rowBytes).sum

/-- `RecordResult<'a>`: a borrowed view into live storage, or an owned
copy.  Both sides carry the matching rows (the bag for `Borrowed`, the
materialized vector for `Owned`). -/
inductive RecordResult where
  | Borrowed (rs : List RowT)
  | Owned (rs : List RowT)
deriving DecidableEq, Repr

/-- `LookupResult<'a>`: either `Some` of a `RecordResult`, or `Missing`.
Embedded directly from the source enum (lines 170–173). -/
inductive LookupResult where
  | Some (rr : RecordResult)
  | Missing
deriving DecidableEq, Repr

/-- A signed delta record (`Record::Positive` / `Record::Negative`). -/
inductive RecordS where
  | pos (r : RowT)
  | neg (r : RowT)
deriving DecidableEq, Repr

/-- The row carried by a record. -/
def RecordS.row : RecordS → RowT
  | .pos r => r
  | .neg r => r

/-- One provisioned index of a materialization.  `partialTags = none`
means fully materialized (no holes, ever); `some tags` means the index is
partially materialized and is replayed to by the listed tags, with
`filled` the keys that have been replayed (every other key is a hole).
`rows` is the multiset of stored tuples, kept flat; the bucket of a key
is recovered by filtering on the projected key. -/
structure Index where
  columns : List Nat
  partialTags : Option (List Tag)
  filled : List KeyT
  rows : List RowT
deriving DecidableEq, Repr

/-- Whether this index is partially materialized. -/
def Index.isPartialIdx (idx : Index) : Bool := idx.partialTags.isSome

/-- Whether `t` is one of the tags replaying into this index.  Only a
partial index carries tags. -/
def tagHits (t : Tag) (idx : Index) : Bool :=
  (idx.partialTags.getD []).contains t

/-- The rows matching key `k` in this index (the key's bucket). -/
def Index.rowsAt (idx : Index) (k : KeyT) : List RowT :=
  idx.rows.filter (fun r => proj idx.columns r == k)

/-- Total multiset byte footprint of the index's stored rows. -/
def Index.bytes (idx : Index) : Nat := sumBytes idx.rows

/-- Modelled from the spec: applying one signed record to one index
(`single_state` is not in the sources).  An insert adds one copy, a
retraction removes exactly one matching copy; a partial index only
touches filled keys, so it never manufactures rows for un-replayed
keys. -/
def Index.applyRec (idx : Index) (rec : RecordS) : Index :=
  match rec with
  | .pos r =>
      if idx.partialTags.isNone || idx.filled.contains (proj idx.columns r) then
        { idx with rows := r :: idx.rows }
      else idx
  | .neg r =>
      if idx.partialTags.isNone || idx.filled.contains (proj idx.columns r) then
        { idx with rows := idx.rows.erase r }
      else idx

/-- Modelled from the spec: evicting a list of keys from an index drops
every row stored under one of those keys and returns each such key to
hole state (removed from `filled`). -/
def Index.evictKeyList (idx : Index) (ks : List KeyT) : Index :=
  { idx with
    rows := idx.rows.filter (fun r => !(ks.contains (proj idx.columns r))),
    filled := idx.filled.filter (fun k => !(ks.contains k)) }

/-- Bytes freed when evicting `ks` from `idx`: the byte footprint of the
rows stored under the listed keys. -/
def Index.evictedBytes (idx : Index) (ks : List KeyT) : Nat :=
  sumBytes (idx.rows.filter (fun r => ks.contains (proj idx.columns r)))

/-- Modelled from the spec: the materialized state of one node — zero or
more indices over one logical row set (`MemoryState` is not in the
sources; this is the reference model of the `State` contract). -/
structure StateS where
  indices : List Index
deriving DecidableEq, Repr

/-- `add_key(columns, partial)`: provision an index over `columns`,
partial iff tags are given (all keys start as holes).  Idempotent per
distinct column set. -/
def StateS.add_key (s : StateS) (cols : List Nat) (tags : Option (List Tag)) : StateS :=
  if s.indices.any (fun idx => idx.columns == cols) then s
  else ⟨s.indices ++ [⟨cols, tags, [], []⟩]⟩

/-- `is_useful()`: false iff no index exists. -/
def StateS.is_useful (s : StateS) : Bool := !s.indices.isEmpty

/-- `is_partial()` in the source: true iff any index is partial. -/
def StateS.hasPartialIndex (s : StateS) : Bool :=
  s.indices.any Index.isPartialIdx

/-- `mark_filled(key, tag)`: record that `key` has been replayed for the
index targeted by `tag`; idempotent. -/
def StateS.mark_filled (s : StateS) (key : KeyT) (t : Tag) : StateS :=
  ⟨s.indices.map (fun idx =>
    if tagHits t idx && !(idx.filled.contains key) then
      { idx with filled := key :: idx.filled }
    else idx)⟩

/-- `mark_hole(key, tag)`: force `key` back to hole state for the index
targeted by `tag`, dropping any rows stored under it. -/
def StateS.mark_hole (s : StateS) (key : KeyT) (t : Tag) : StateS :=
  ⟨s.indices.map (fun idx =>
    if tagHits t idx then idx.evictKeyList [key] else idx)⟩

/-- `process_records(records, partial_tag)`.  Modelled from the spec:
apply the batch to every index in order; when `partial_tag` is set,
records whose key is currently a hole for that tag's index are stripped
from the batch in place rather than applied.  Returns the new state and
the batch as it stands after the call (the source takes `&mut Records`).
The `filled` sets are unchanged by record application, so filtering the
batch first and then folding it is the sequential behaviour. -/
def StateS.process_records (s : StateS) (records : List RecordS) (ptag : Option Tag) :
    StateS × List RecordS :=
  match ptag with
  | Option.none =>
      (⟨s.indices.map (fun i => records.foldl Index.applyRec i)⟩, records)
  | Option.some t =>
      match s.indices.find? (tagHits t) with
      | Option.none =>
          (⟨s.indices.map (fun i => records.foldl Index.applyRec i)⟩, records)
      | Option.some idx =>
          let retained :=
            records.filter (fun rec => idx.filled.contains (proj idx.columns rec.row))
          (⟨s.indices.map (fun i => retained.foldl Index.applyRec i)⟩, retained)

/-- `lookup(columns, key)`: locate the index exactly matching `columns`;
`Missing` if the key is a hole in a partial index, otherwise `Some` of
the (possibly empty) bucket, borrowed from live storage. -/
def StateS.lookup (s : StateS) (cols : List Nat) (k : KeyT) : LookupResult :=
  match s.indices.find? (fun idx => idx.columns == cols) with
  | Option.none => LookupResult.Missing
  | Option.some idx =>
      if idx.isPartialIdx && !(idx.filled.contains k) then LookupResult.Missing
      else LookupResult.Some (RecordResult.Borrowed (idx.rowsAt k))

/-- Fallback index for `headD` on the (contract-violating) empty state. -/
def emptyIndex : Index := ⟨[], Option.none, [], []⟩

/-- `len()`: the number of rows stored in this state — total multiset
cardinality of the primary index's rows, not the number of keys. -/
def StateS.len (s : StateS) : Nat := (s.indices.headD emptyIndex).rows.length

/-- `keys()`: the column sets of all provisioned indices. -/
def StateS.keys (s : StateS) : List (List Nat) := s.indices.map Index.columns

/-- `cloned_records()`: a copy of all records.  The source panics when
the state is only partially materialized; the panic is modelled as
`Option.none`. -/
def StateS.cloned_records (s : StateS) : Option (List RowT) :=
  if s.hasPartialIndex then Option.none
  else Option.some (s.indices.headD emptyIndex).rows

/-- `clear()`: remove all rows from all indices; the indices (and their
hole bookkeeping) remain provisioned. -/
def StateS.clear (s : StateS) : StateS :=
  ⟨s.indices.map (fun idx => { idx with rows := [], filled := [] })⟩

/-- `evict_keys(tag, keys)`: evict the listed keys from the index
targeted by `tag`, returning that index's key columns and the bytes
freed, or nothing (and no mutation) when the tag has no partial index. -/
def StateS.evict_keys (s : StateS) (t : Tag) (ks : List KeyT) :
    StateS × Option (List Nat × Nat) :=
  match s.indices.find? (tagHits t) with
  | Option.none => (s, Option.none)
  | Option.some idx =>
      (⟨s.indices.map (fun i => if tagHits t i then i.evictKeyList ks else i)⟩,
       Option.some (idx.columns, idx.evictedBytes ks))

/-- The distinct keys currently stored in an index, in storage order. -/
def Index.keyList (idx : Index) : List KeyT :=
  (idx.rows.map (proj idx.columns)).dedup

/-- Rotating index selection driven by `spread`: incrementing `spread`
before each call moves to a different index when more than one exists. -/
def chooseIdx (n spread : Nat) : Nat := spread % n

/-- Modelled from the spec: walk the candidate keys of the chosen index
and pick keys to evict until the freed bytes reach the target.  Returns
the picked keys and the bytes their rows occupy.  (The source picks keys
randomly; the model walks them in storage order, which fixes one
admissible random choice.) -/
def evictPick (cols : List Nat) (target : Nat) (ks : List KeyT) (rows : List RowT) :
    List KeyT × Nat :=
  match ks with
  | [] => ([], 0)
  | k :: rest =>
      if target ≤ sumBytes (rows.filter (fun r => proj cols r == k)) then
        ([k], sumBytes (rows.filter (fun r => proj cols r == k)))
      else
        (k :: (evictPick cols (target - sumBytes (rows.filter (fun r => proj cols r == k)))
            rest rows).1,
         sumBytes (rows.filter (fun r => proj cols r == k)) +
           (evictPick cols (target - sumBytes (rows.filter (fun r => proj cols r == k)))
             rest rows).2)

/-- `evict_random_keys(bytes, fraction, spread)`: free ≈`bytes` bytes
from exactly one index, chosen by rotating `spread` over the indices;
returns the chosen index's key columns, the evicted keys and the bytes
actually freed.  `fraction` is the fractional byte-budget accumulator,
whose exact carry-over semantics the spec leaves open; the model passes
it through unchanged. -/
def StateS.evict_random_keys (s : StateS) (bytes : Nat) (fraction : Rat) (spread : Nat) :
    StateS × Rat × List Nat × List KeyT × Nat :=
  let i := chooseIdx s.indices.length spread
  match s.indices.get? i with
  | Option.none => (s, fraction, [], [], 0)
  | Option.some idx =>
      let p := evictPick idx.columns bytes idx.keyList idx.rows
      (⟨s.indices.set i (idx.evictKeyList p.1)⟩, fraction, idx.columns, p.1, p.2)

/-- A freshly provisioned state with one partial index on column 0,
replayed to by tag 7 (the spec's running scenario). -/
def demoState : StateS := (StateS.mk []).add_key [0] (Option.some [7])

/-- C1: on a provisioned index, every lookup is exactly one of the two
`LookupResult` variants — `Missing` precisely when the key is a hole in a
partial index, and otherwise `Some` of the (possibly empty) bucket of
matching rows; a hole never yields an empty-but-present result. -/
theorem C1_lookup_two_variants (s : StateS) (cols : List Nat) (k : KeyT) (idx : Index)
    (hfind : s.indices.find? (fun i => i.columns == cols) = Option.some idx) :
    (s.lookup cols k = LookupResult.Missing ∨
      s.lookup cols k = LookupResult.Some (RecordResult.Borrowed (idx.rowsAt k))) ∧
    (s.lookup cols k = LookupResult.Missing ↔
      (idx.isPartialIdx = true ∧ idx.filled.contains k = false)) := by
  have hl : s.lookup cols k =
      if idx.isPartialIdx && !(idx.filled.contains k) then LookupResult.Missing
      else LookupResult.Some (RecordResult.Borrowed (idx.rowsAt k)) := by
    unfold StateS.lookup
    rw [hfind]
  rw [hl]
  by_cases h : (idx.isPartialIdx && !(idx.filled.contains k)) = true
  · rw [if_pos h]
    simp only [Bool.and_eq_true, Bool.not_eq_true'] at h
    exact ⟨Or.inl rfl, ⟨fun _ => h, fun _ => rfl⟩⟩
  · rw [if_neg h]
    simp only [Bool.and_eq_true, Bool.not_eq_true'] at h
    constructor
    · exact Or.inr rfl
    · constructor
      · intro hc
        exact absurd hc (by simp)
      · intro hc
        exact absurd hc (by tauto)

/-- C1 witness: in the demo state the index on `[0]` is provisioned and
partial, key `[5]` is a hole, and the lookup is `Missing`. -/
theorem C1_lookup_two_variants_witness :
    demoState.lookup [0] [DataType.int 5] = LookupResult.Missing ∨
      demoState.lookup [0] [DataType.int 5] =
        LookupResult.Some (RecordResult.Borrowed
          (Index.rowsAt ⟨[0], Option.some [7], [], []⟩ [DataType.int 5])) :=
  (C1_lookup_two_variants demoState [0] [DataType.int 5]
    ⟨[0], Option.some [7], [], []⟩ (by decide)).1

/-- C4: `cloned_records` fails (modelled `none`, a panic in the source)
whenever any index is partial, and on a non-partial state returns a full
snapshot whose cardinality is the state's row count. -/
theorem C4_cloned_records_partial_fails (s : StateS) :
    (s.hasPartialIndex = true → s.cloned_records = Option.none) ∧
    (s.hasPartialIndex = false →
      ∃ l, s.cloned_records = Option.some l ∧ l.length = s.len) := by
  constructor
  · intro h
    simp [StateS.cloned_records, h]
  · intro h
    exact ⟨(s.indices.headD emptyIndex).rows, by simp [StateS.cloned_records, h], rfl⟩

/-- C4 witness: the demo partial state's snapshot fails; a one-index full
state snapshots all three stored rows. -/
theorem C4_cloned_records_partial_fails_witness :
    demoState.cloned_records = Option.none ∧
      ∃ l, (StateS.mk [⟨[0], Option.none, [],
          [[DataType.int 1], [DataType.int 2], [DataType.int 2]]⟩]).cloned_records =
        Option.some l ∧ l.length =
          (StateS.mk [⟨[0], Option.none, [],
            [[DataType.int 1], [DataType.int 2], [DataType.int 2]]⟩]).len :=
  ⟨(C4_cloned_records_partial_fails demoState).1 (by decide),
   (C4_cloned_records_partial_fails _).2 (by decide)⟩

/-- An index over column 0 holding a thousand copies of one row: one
distinct key, one thousand multiset members. -/
def thousandIdx : Index :=
  ⟨[0], Option.none, [], List.replicate 1000 [DataType.int 5]⟩

/-- The number of distinct keys currently stored in an index. -/
def Index.keyCount (idx : Index) : Nat := idx.keyList.length

/-- C7: `len` reports total multiset row cardinality, not distinct-key
count: it always equals the number of stored row copies, and on an index
mapping a single key to a thousand rows it reports 1000 while the index
has exactly one distinct key. -/
theorem C7_len_multiset_cardinality :
    (∀ idx : Index, StateS.len ⟨[idx]⟩ = idx.rows.length) ∧
    StateS.len ⟨[thousandIdx]⟩ = 1000 ∧ thousandIdx.keyCount = 1 := by
  have hlen : StateS.len ⟨[thousandIdx]⟩ =
      (List.replicate 1000 ([DataType.int 5] : RowT)).length := rfl
  refine ⟨fun idx => rfl, by rw [hlen, List.length_replicate], ?_⟩
  show ((thousandIdx.rows.map (proj thousandIdx.columns)).dedup).length = 1
  have hmap : thousandIdx.rows.map (proj thousandIdx.columns) =
      List.replicate 1000 (proj [0] [DataType.int 5]) := by
    show (List.replicate 1000 ([DataType.int 5] : RowT)).map (proj [0]) = _
    rw [List.map_replicate]
  rw [hmap, List.replicate_dedup (by norm_num)]
  rfl

/-- C9: `Row` equality and the `Rows` multiset are content-keyed:
handles with different identities but equal tuples are equal, equality is
reflexive on any handle (so two handles sharing one physical tuple are
equal by content), and two independently inserted content-equal handles
count as two copies of the same multiset element. -/
theorem C9_row_content_equality :
    (∀ (i j : Nat) (v : RowT), rowEq ⟨i, v⟩ ⟨j, v⟩ = true) ∧
    (∀ r : Row, rowEq r r = true) ∧
    (∀ (x h1 h2 : Row) (rs : List Row), rowEq h1 x = true → rowEq h2 x = true →
      rowsCount (h1 :: h2 :: rs) x = rowsCount rs x + 2) := by
  refine ⟨fun i j v => by simp [rowEq], fun r => by simp [rowEq], ?_⟩
  intro x h1 h2 rs e1 e2
  simp [rowsCount, List.countP_cons, e1, e2]

/-- C9 witness: two handles with distinct identities around the tuple
`[5]` are two copies of one multiset element. -/
theorem C9_row_content_equality_witness :
    rowsCount [⟨1, [DataType.int 5]⟩, ⟨2, [DataType.int 5]⟩] ⟨0, [DataType.int 5]⟩ = 2 := by
  simpa using C9_row_content_equality.2.2 ⟨0, [DataType.int 5]⟩
    ⟨1, [DataType.int 5]⟩ ⟨2, [DataType.int 5]⟩ [] (by decide) (by decide)

/-- C10: `size_of` is the fixed handle size, the same for every row and
unchanged by growing the tuple; `deep_size_of` is the recursive content
size of the wrapped tuple, growing with each appended cell; `is_empty` is
always `false`; and the per-row eviction charge is handle plus payload. -/
theorem C10_row_size_of_contract :
    (∀ r₁ r₂ : Row, Row.size_of r₁ = Row.size_of r₂) ∧
    (∀ (i : Nat) (v : RowT) (d : DataType),
      Row.size_of ⟨i, v ++ [d]⟩ = Row.size_of ⟨i, v⟩ ∧
      Row.deep_size_of ⟨i, v ++ [d]⟩ = Row.deep_size_of ⟨i, v⟩ + 16 + d.heapSize) ∧
    (∀ r : Row, Row.is_empty r = false) ∧
    (∀ (i : Nat) (v : RowT), rowBytes v = Row.size_of ⟨i, v⟩ + Row.deep_size_of ⟨i, v⟩) := by
  refine ⟨fun r₁ r₂ => rfl, ?_, fun r => rfl, fun i v => rfl⟩
  intro i v d
  refine ⟨rfl, ?_⟩
  simp [Row.deep_size_of, tupleDeepSize, Nat.mul_add]
  ring

/-- Number of insertions of row `r` in a batch. -/
def insCount (r : RowT) (recs : List RecordS) : Nat := recs.count (RecordS.pos r)

/-- Number of retractions of row `r` in a batch. -/
def delCount (r : RowT) (recs : List RecordS) : Nat := recs.count (RecordS.neg r)

/-- Every retraction of `r` in the batch matches a live copy when it is
applied, starting from `c` stored copies of `r`. -/
def matchedAll (r : RowT) (c : Nat) : List RecordS → Bool
  | [] => true
  | RecordS.pos r' :: rest => matchedAll r (if r' == r then c + 1 else c) rest
  | RecordS.neg r' :: rest =>
      if r' == r then decide (0 < c) && matchedAll r (c - 1) rest
      else matchedAll r c rest

theorem insCount_cons_pos_self (r : RowT) (rest : List RecordS) :
    insCount r (RecordS.pos r :: rest) = insCount r rest + 1 := by
  simp [insCount, List.count_cons]

theorem insCount_cons_pos_ne (r r' : RowT) (h : r' ≠ r) (rest : List RecordS) :
    insCount r (RecordS.pos r' :: rest) = insCount r rest := by
  simp [insCount, List.count_cons, h]

theorem insCount_cons_neg (r r' : RowT) (rest : List RecordS) :
    insCount r (RecordS.neg r' :: rest) = insCount r rest := by
  simp [insCount, List.count_cons]

theorem delCount_cons_pos (r r' : RowT) (rest : List RecordS) :
    delCount r (RecordS.pos r' :: rest) = delCount r rest := by
  simp [delCount, List.count_cons]

theorem delCount_cons_neg_self (r : RowT) (rest : List RecordS) :
    delCount r (RecordS.neg r :: rest) = delCount r rest + 1 := by
  simp [delCount, List.count_cons]

theorem delCount_cons_neg_ne (r r' : RowT) (h : r' ≠ r) (rest : List RecordS) :
    delCount r (RecordS.neg r' :: rest) = delCount r rest := by
  simp [delCount, List.count_cons, h]

/-- Multiset accounting for one full index: after folding the batch,
stored copies of `r` plus its matched retractions equal the initial
copies plus its insertions. -/
theorem processFull_count (recs : List RecordS) (idx : Index) (r : RowT)
    (hfull : idx.partialTags = Option.none)
    (hm : matchedAll r (idx.rows.count r) recs = true) :
    (recs.foldl Index.applyRec idx).rows.count r + delCount r recs =
      idx.rows.count r + insCount r recs := by
  induction recs generalizing idx with
  | nil => simp [delCount, insCount]
  | cons rec rest ih =>
    cases rec with
    | pos r' =>
      have happ : Index.applyRec idx (RecordS.pos r') = { idx with rows := r' :: idx.rows } := by
        simp [Index.applyRec, hfull]
      rw [List.foldl_cons, happ, delCount_cons_pos]
      by_cases h : r' = r
      · subst h
        rw [insCount_cons_pos_self]
        have hc : ({ idx with rows := r' :: idx.rows } : Index).rows.count r' =
            idx.rows.count r' + 1 := by
          simp [List.count_cons]
        have hm' : matchedAll r' (({ idx with rows := r' :: idx.rows } : Index).rows.count r')
            rest = true := by
          rw [hc]
          simpa [matchedAll] using hm
        have := ih { idx with rows := r' :: idx.rows } hfull hm'
        rw [hc] at this
        omega
      · rw [insCount_cons_pos_ne r r' h]
        have hc : ({ idx with rows := r' :: idx.rows } : Index).rows.count r =
            idx.rows.count r := by
          simp [List.count_cons, h]
        have hm' : matchedAll r (({ idx with rows := r' :: idx.rows } : Index).rows.count r)
            rest = true := by
          rw [hc]
          have hb : (r' == r) = false := by simpa using h
          simpa [matchedAll, hb] using hm
        have := ih { idx with rows := r' :: idx.rows } hfull hm'
        rw [hc] at this
        omega
    | neg r' =>
      have happ : Index.applyRec idx (RecordS.neg r') = { idx with rows := idx.rows.erase r' } := by
        simp [Index.applyRec, hfull]
      rw [List.foldl_cons, happ, insCount_cons_neg]
      by_cases h : r' = r
      · subst h
        rw [delCount_cons_neg_self]
        have hm0 : (decide (0 < idx.rows.count r') && matchedAll r' (idx.rows.count r' - 1)
            rest) = true := by
          simpa [matchedAll] using hm
        rw [Bool.and_eq_true] at hm0
        have hpos : 0 < idx.rows.count r' := by simpa using hm0.1
        have hc : ({ idx with rows := idx.rows.erase r' } : Index).rows.count r' =
            idx.rows.count r' - 1 := by
          simp [List.count_erase_self]
        have hm' : matchedAll r' (({ idx with rows := idx.rows.erase r' } : Index).rows.count r')
            rest = true := by
          rw [hc]
          exact hm0.2
        have := ih { idx with rows := idx.rows.erase r' } hfull hm'
        rw [hc] at this
        omega
      · rw [delCount_cons_neg_ne r r' h]
        have hc : ({ idx with rows := idx.rows.erase r' } : Index).rows.count r =
            idx.rows.count r := by
          simpa using List.count_erase_of_ne (Ne.symm h) idx.rows
        have hm' : matchedAll r (({ idx with rows := idx.rows.erase r' } : Index).rows.count r)
            rest = true := by
          rw [hc]
          have hb : (r' == r) = false := by simpa using h
          simpa [matchedAll, hb] using hm
        have := ih { idx with rows := idx.rows.erase r' } hfull hm'
        rw [hc] at this
        omega

/-- C2: on a full index, applying a batch by `process_records` leaves,
for every row, exactly inserted-minus-matched-deleted copies — one
retraction removes exactly one matching multiset copy. -/
theorem C2_full_index_multiset (idx : Index) (recs : List RecordS) (r : RowT)
    (hfull : idx.partialTags = Option.none)
    (hm : matchedAll r (idx.rows.count r) recs = true) :
    ∃ idx', (StateS.process_records ⟨[idx]⟩ recs Option.none).1 = ⟨[idx']⟩ ∧
      idx'.rows.count r + delCount r recs = idx.rows.count r + insCount r recs ∧
      idx'.rows.count r = idx.rows.count r + insCount r recs - delCount r recs := by
  refine ⟨recs.foldl Index.applyRec idx, rfl, ?_, ?_⟩
  · exact processFull_count recs idx r hfull hm
  · have := processFull_count recs idx r hfull hm
    omega

/-- Three identical inserts followed by one identical retraction, the
spec's worked example. -/
def demoBatch : List RecordS :=
  [RecordS.pos [DataType.int 1], RecordS.pos [DataType.int 1],
   RecordS.pos [DataType.int 1], RecordS.neg [DataType.int 1]]

/-- C2 witness: inserting three identical rows then deleting one leaves
multiset cardinality two. -/
theorem C2_full_index_multiset_witness :
    ∃ idx', (StateS.process_records ⟨[⟨[0], Option.none, [], []⟩]⟩ demoBatch
        Option.none).1 = ⟨[idx']⟩ ∧ idx'.rows.count [DataType.int 1] = 2 := by
  obtain ⟨idx', h1, -, h2⟩ := C2_full_index_multiset ⟨[0], Option.none, [], []⟩ demoBatch
    [DataType.int 1] rfl (by decide)
  refine ⟨idx', h1, ?_⟩
  rw [h2]
  decide

/-- A partial index stores rows only under filled keys (holes own no
rows).  Trivially true of a full index. -/
def Index.holeFree (idx : Index) : Prop :=
  ∀ r ∈ idx.rows, idx.partialTags.isSome = true →
    idx.filled.contains (proj idx.columns r) = true

instance instDecidableHoleFree (idx : Index) : Decidable idx.holeFree :=
  inferInstanceAs (Decidable (∀ r ∈ idx.rows, idx.partialTags.isSome = true →
    idx.filled.contains (proj idx.columns r) = true))

theorem applyRec_columns (idx : Index) (rec : RecordS) :
    (idx.applyRec rec).columns = idx.columns := by
  cases rec <;> simp only [Index.applyRec] <;> split <;> rfl

theorem applyRec_partialTags (idx : Index) (rec : RecordS) :
    (idx.applyRec rec).partialTags = idx.partialTags := by
  cases rec <;> simp only [Index.applyRec] <;> split <;> rfl

theorem applyRec_filled (idx : Index) (rec : RecordS) :
    (idx.applyRec rec).filled = idx.filled := by
  cases rec <;> simp only [Index.applyRec] <;> split <;> rfl

theorem applyRec_holeFree (idx : Index) (rec : RecordS) (h : idx.holeFree) :
    (idx.applyRec rec).holeFree := by
  intro r hr hsome
  rw [applyRec_partialTags] at hsome
  rw [applyRec_filled, applyRec_columns]
  cases rec with
  | pos r' =>
    simp only [Index.applyRec] at hr
    split at hr
    · next hcond =>
      rcases List.mem_cons.mp hr with hre | hrold
      · subst hre
        rcases Bool.or_eq_true _ _ |>.mp hcond with hnone | hcont
        · rw [Option.isNone_iff_eq_none] at hnone
          rw [hnone] at hsome
          simp at hsome
        · exact hcont
      · exact h r hrold hsome
    · exact h r hr hsome
  | neg r' =>
    simp only [Index.applyRec] at hr
    split at hr
    · exact h r (List.mem_of_mem_erase hr) hsome
    · exact h r hr hsome

theorem foldl_applyRec_columns (recs : List RecordS) (idx : Index) :
    (recs.foldl Index.applyRec idx).columns = idx.columns := by
  induction recs generalizing idx with
  | nil => rfl
  | cons rec rest ih => rw [List.foldl_cons, ih, applyRec_columns]

theorem foldl_applyRec_partialTags (recs : List RecordS) (idx : Index) :
    (recs.foldl Index.applyRec idx).partialTags = idx.partialTags := by
  induction recs generalizing idx with
  | nil => rfl
  | cons rec rest ih => rw [List.foldl_cons, ih, applyRec_partialTags]

theorem foldl_applyRec_filled (recs : List RecordS) (idx : Index) :
    (recs.foldl Index.applyRec idx).filled = idx.filled := by
  induction recs generalizing idx with
  | nil => rfl
  | cons rec rest ih => rw [List.foldl_cons, ih, applyRec_filled]

theorem foldl_applyRec_holeFree (recs : List RecordS) (idx : Index) (h : idx.holeFree) :
    (recs.foldl Index.applyRec idx).holeFree := by
  induction recs generalizing idx with
  | nil => exact h
  | cons rec rest ih => exact ih _ (applyRec_holeFree idx rec h)

/-- `find?` commutes with mapping a function that does not change the
predicate's verdict. -/
theorem find?_map_pres {α : Type} (f : α → α) (p : α → Bool) (hf : ∀ a, p (f a) = p a) :
    ∀ l : List α, (l.map f).find? p = (l.find? p).map f := by
  intro l
  induction l with
  | nil => rfl
  | cons a l ih =>
    rw [List.map_cons]
    cases h : p a with
    | true =>
      have h' : p (f a) = true := (hf a).trans h
      rw [List.find?_cons_of_pos _ h', List.find?_cons_of_pos _ h, Option.map_some']
    | false =>
      have h' : p (f a) = false := (hf a).trans h
      rw [List.find?_cons_of_neg _ (by simp [h']), List.find?_cons_of_neg _ (by simp [h])]
      exact ih

theorem tagHits_foldl (t : Tag) (recs : List RecordS) (idx : Index) :
    tagHits t (recs.foldl Index.applyRec idx) = tagHits t idx := by
  unfold tagHits
  rw [foldl_applyRec_partialTags]

/-- C3: with `partial_tag` set, a record whose key is a hole for that
tag's index is stripped from the batch (the post-call batch is a sublist
of the input and no longer holds the record), and the record's row is
absent from that index after the call — a partial index never
manufactures rows for un-replayed keys. -/
theorem C3_hole_records_stripped (s : StateS) (records : List RecordS) (t : Tag)
    (idx : Index) (rec : RecordS)
    (hfind : s.indices.find? (tagHits t) = Option.some idx)
    (hhole : idx.filled.contains (proj idx.columns rec.row) = false) :
    ((s.process_records records (Option.some t)).2).Sublist records ∧
    rec ∉ (s.process_records records (Option.some t)).2 ∧
    (Index.holeFree idx →
      ∃ idx', ((s.process_records records (Option.some t)).1).indices.find? (tagHits t) =
          Option.some idx' ∧ rec.row ∉ idx'.rows) := by
  have hp : s.process_records records (Option.some t) =
      (⟨s.indices.map (fun i =>
          (records.filter (fun rc => idx.filled.contains (proj idx.columns rc.row))).foldl
            Index.applyRec i)⟩,
       records.filter (fun rc => idx.filled.contains (proj idx.columns rc.row))) := by
    simp only [StateS.process_records, hfind]
  rw [hp]
  refine ⟨List.filter_sublist records, ?_, ?_⟩
  · intro hmem
    have := List.of_mem_filter hmem
    rw [hhole] at this
    exact Bool.false_ne_true this
  · intro hhf
    set retained := records.filter (fun rc => idx.filled.contains (proj idx.columns rc.row))
      with hret
    refine ⟨retained.foldl Index.applyRec idx, ?_, ?_⟩
    · show (s.indices.map (fun i => retained.foldl Index.applyRec i)).find? (tagHits t) =
        Option.some (retained.foldl Index.applyRec idx)
      rw [find?_map_pres _ _ (fun i => tagHits_foldl t retained i), hfind]
      rfl
    · intro hmem
      have hsome : (retained.foldl Index.applyRec idx).partialTags.isSome = true := by
        rw [foldl_applyRec_partialTags]
        have hth : tagHits t idx = true := List.find?_some hfind
        unfold tagHits at hth
        cases hpt : idx.partialTags with
        | none => rw [hpt] at hth; simp at hth
        | some l => rfl
      have := foldl_applyRec_holeFree retained idx hhf rec.row hmem hsome
      rw [foldl_applyRec_filled, foldl_applyRec_columns] at this
      rw [hhole] at this
      exact Bool.false_ne_true this

/-- C3 witness: in the fresh partial demo state every key is a hole, so
an insert of row `[5]` under tag 7 is stripped from the batch and the row
stays out of the index. -/
theorem C3_hole_records_stripped_witness :
    ((demoState.process_records [RecordS.pos [DataType.int 5]] (Option.some 7)).2).Sublist
        [RecordS.pos [DataType.int 5]] ∧
    RecordS.pos [DataType.int 5] ∉
      (demoState.process_records [RecordS.pos [DataType.int 5]] (Option.some 7)).2 ∧
    ∃ idx', ((demoState.process_records [RecordS.pos [DataType.int 5]]
        (Option.some 7)).1).indices.find? (tagHits 7) = Option.some idx' ∧
      [DataType.int 5] ∉ idx'.rows := by
  have h := C3_hole_records_stripped demoState [RecordS.pos [DataType.int 5]] 7
    ⟨[0], Option.some [7], [], []⟩ (RecordS.pos [DataType.int 5]) (by decide) (by decide)
  exact ⟨h.1, h.2.1, h.2.2 (by decide)⟩

theorem sumBytes_cons (a : RowT) (l : List RowT) :
    sumBytes (a :: l) = rowBytes a + sumBytes l := by
  simp [sumBytes]

/-- Splitting a row list by any predicate splits its byte footprint. -/
theorem sumBytes_filter_split (p : RowT → Bool) (l : List RowT) :
    sumBytes (l.filter p) + sumBytes (l.filter (fun r => !(p r))) = sumBytes l := by
  induction l with
  | nil => rfl
  | cons a l ih =>
    cases h : p a with
    | true =>
      rw [List.filter_cons_of_pos (by simpa using h), List.filter_cons_of_neg (by simp [h]),
        sumBytes_cons, sumBytes_cons]
      omega
    | false =>
      rw [List.filter_cons_of_neg (by simp [h]), List.filter_cons_of_pos (by simp [h]),
        sumBytes_cons, sumBytes_cons]
      omega

/-- C5: `evict_keys(tag, keys)` on a tag with no partial index mutates
nothing and returns nothing; on a tag whose replay path targets a partial
index it removes exactly the listed keys' rows from that index, leaves
every untagged index untouched, and returns `Some` of that index's key
columns with the bytes actually freed. -/
theorem C5_evict_keys_contract (s : StateS) (t : Tag) (ks : List KeyT) :
    (s.indices.find? (tagHits t) = Option.none → s.evict_keys t ks = (s, Option.none)) ∧
    (∀ idx, s.indices.find? (tagHits t) = Option.some idx →
      (s.evict_keys t ks).2 = Option.some (idx.columns, idx.evictedBytes ks) ∧
      (s.evict_keys t ks).1.indices =
        s.indices.map (fun i => if tagHits t i then i.evictKeyList ks else i) ∧
      (∀ j : Nat, tagHits t (s.indices.getD j emptyIndex) = false →
        (s.evict_keys t ks).1.indices.getD j emptyIndex = s.indices.getD j emptyIndex) ∧
      (∀ r, r ∈ (idx.evictKeyList ks).rows ↔
        (r ∈ idx.rows ∧ ks.contains (proj idx.columns r) = false)) ∧
      idx.evictedBytes ks + sumBytes (idx.evictKeyList ks).rows = sumBytes idx.rows) := by
  constructor
  · intro hnone
    simp only [StateS.evict_keys, hnone]
  · intro idx hfind
    have hev : s.evict_keys t ks =
        (⟨s.indices.map (fun i => if tagHits t i then i.evictKeyList ks else i)⟩,
         Option.some (idx.columns, idx.evictedBytes ks)) := by
      simp only [StateS.evict_keys, hfind]
    refine ⟨by rw [hev], by rw [hev], ?_, ?_, ?_⟩
    · intro j hj
      rw [hev]
      show (s.indices.map (fun i => if tagHits t i then i.evictKeyList ks else i)).getD j
          emptyIndex = s.indices.getD j emptyIndex
      rw [List.getD_eq_getElem?_getD, List.getD_eq_getElem?_getD, List.getElem?_map]
      rw [List.getD_eq_getElem?_getD] at hj
      cases hg : s.indices[j]? with
      | none => rfl
      | some i0 =>
        rw [hg] at hj
        have hj' : tagHits t i0 = false := hj
        show (if tagHits t i0 = true then i0.evictKeyList ks else i0) = i0
        rw [if_neg (by simp [hj'])]
    · intro r
      constructor
      · intro hr
        have hmem := List.mem_of_mem_filter hr
        have hpred := List.of_mem_filter hr
        exact ⟨hmem, by simpa using hpred⟩
      · intro ⟨hmem, hpred⟩
        exact List.mem_filter.mpr ⟨hmem, by simpa using hpred⟩
    · exact sumBytes_filter_split (fun r => ks.contains (proj idx.columns r)) idx.rows

/-- A one-index state: partial on column 0 via tag 7, key `[5]` filled,
holding the single row `[5, "a"]`. -/
def litState : StateS :=
  ⟨[⟨[0], Option.some [7], [[DataType.int 5]],
    [[DataType.int 5, DataType.text "a"]]⟩]⟩

/-- C5 witness: evicting key `[5]` via tag 7 reports the index's columns
`[0]` and the 41 bytes of the one stored row (8 handle + 32 inline + 1
heap); a tag with no partial index reports nothing and leaves the state
intact. -/
theorem C5_evict_keys_contract_witness :
    (litState.evict_keys 7 [[DataType.int 5]]).2 = Option.some ([0], 41) ∧
    litState.evict_keys 99 [[DataType.int 5]] = (litState, Option.none) := by
  constructor
  · have h := (C5_evict_keys_contract litState 7 [[DataType.int 5]]).2
      ⟨[0], Option.some [7], [[DataType.int 5]], [[DataType.int 5, DataType.text "a"]]⟩
      (by decide)
    rw [h.1]
    decide
  · exact (C5_evict_keys_contract litState 99 [[DataType.int 5]]).1 (by decide)

/-- C6: after `evict_keys` removes a key from the partial index targeted
by a tag, looking that key up on that index yields `Missing`: the key is
back to hole state. -/
theorem C6_evicted_key_is_hole (s : StateS) (t : Tag) (ks : List KeyT) (k : KeyT)
    (idx : Index)
    (hfind : s.indices.find? (tagHits t) = Option.some idx)
    (hcols : s.indices.find? (fun i => i.columns == idx.columns) = Option.some idx)
    (hk : ks.contains k = true) :
    ((s.evict_keys t ks).1).lookup idx.columns k = LookupResult.Missing := by
  have hth : tagHits t idx = true := List.find?_some hfind
  have hev : (s.evict_keys t ks).1 =
      ⟨s.indices.map (fun i => if tagHits t i then i.evictKeyList ks else i)⟩ := by
    simp only [StateS.evict_keys, hfind]
  set f := fun i => if tagHits t i then i.evictKeyList ks else i with hf
  have hfcols : ∀ i : Index, (f i).columns = i.columns := by
    intro i
    by_cases hi : tagHits t i = true <;> simp [hf, hi, Index.evictKeyList]
  have hfind' : (s.indices.map f).find? (fun i => i.columns == idx.columns) =
      Option.some (f idx) := by
    rw [find?_map_pres f _ (fun a => by rw [hfcols a]), hcols]
    rfl
  have hfidx : f idx = idx.evictKeyList ks := by
    simp [hf, hth]
  have hsome : (idx.evictKeyList ks).isPartialIdx = true := by
    unfold tagHits at hth
    cases hpt : idx.partialTags with
    | none => rw [hpt] at hth; simp at hth
    | some l => simp [Index.isPartialIdx, Index.evictKeyList, hpt]
  have hcf : (idx.evictKeyList ks).filled.contains k = false := by
    by_cases hc : (idx.evictKeyList ks).filled.contains k = true
    · exfalso
      have hkmem : k ∈ idx.filled.filter (fun k' => !(ks.contains k')) := by
        simpa [Index.evictKeyList, List.elem_iff] using hc
      have := List.of_mem_filter hkmem
      rw [hk] at this
      simp at this
    · simpa using hc
  rw [hev]
  unfold StateS.lookup
  rw [hfind', hfidx]
  have hcond : ((idx.evictKeyList ks).isPartialIdx &&
      !((idx.evictKeyList ks).filled.contains k)) = true := by
    rw [hsome, hcf]
    rfl
  simp only [StateS.lookup]
  simp [hcond]
  exact ⟨hsome, by simpa using hcf⟩

/-- C6 witness: the spec's scenario — after `evict_keys(tag 7, [[5]])` on
the state holding `[5, "a"]` under filled key `[5]`, `lookup([0], [5])`
is `Missing`. -/
theorem C6_evicted_key_is_hole_witness :
    ((litState.evict_keys 7 [[DataType.int 5]]).1).lookup [0] [DataType.int 5] =
      LookupResult.Missing :=
  C6_evicted_key_is_hole litState 7 [[DataType.int 5]] [DataType.int 5]
    ⟨[0], Option.some [7], [[DataType.int 5]], [[DataType.int 5, DataType.text "a"]]⟩
    (by decide) (by decide) (by decide)

/-- Splitting a row list by a disjunction of disjoint predicates splits
its byte footprint additively. -/
theorem sumBytes_filter_or (p q : RowT → Bool) (l : List RowT)
    (hdisj : ∀ r ∈ l, ¬(p r = true ∧ q r = true)) :
    sumBytes (l.filter (fun r => p r || q r)) =
      sumBytes (l.filter p) + sumBytes (l.filter q) := by
  induction l with
  | nil => rfl
  | cons a l ih =>
    have hd := hdisj a (List.mem_cons_self a l)
    have ih' := ih (fun r hr => hdisj r (List.mem_cons_of_mem a hr))
    cases hp : p a with
    | true =>
      have hq : q a = false := by
        cases hq : q a with
        | true => exact absurd ⟨hp, hq⟩ hd
        | false => rfl
      rw [List.filter_cons_of_pos (by simp [hp]), List.filter_cons_of_pos (by simp [hp]),
        List.filter_cons_of_neg (by simp [hq]), sumBytes_cons, sumBytes_cons, ih']
      omega
    | false =>
      cases hq : q a with
      | true =>
        rw [List.filter_cons_of_pos (by simp [hp, hq]), List.filter_cons_of_neg (by simp [hp]),
          List.filter_cons_of_pos (by simp [hq]), sumBytes_cons, sumBytes_cons, ih']
        omega
      | false =>
        rw [List.filter_cons_of_neg (by simp [hp, hq]), List.filter_cons_of_neg (by simp [hp]),
          List.filter_cons_of_neg (by simp [hq]), ih']

/-- Keys picked for eviction come from the candidate key list. -/
theorem evictPick_subset (cols : List Nat) (rows : List RowT) :
    ∀ (ks : List KeyT) (target : Nat) (k : KeyT),
      k ∈ (evictPick cols target ks rows).1 → k ∈ ks := by
  intro ks
  induction ks with
  | nil =>
    intro target k hk
    simp [evictPick] at hk
  | cons k0 rest ih =>
    intro target k hk
    simp only [evictPick] at hk
    split at hk
    · rw [List.mem_singleton] at hk
      exact hk ▸ List.mem_cons_self _ _
    · rcases List.mem_cons.mp hk with h | h
      · exact h ▸ List.mem_cons_self _ _
      · exact List.mem_cons_of_mem _ (ih _ k h)

/-- The bytes reported by `evictPick` are exactly the byte footprint of
the rows stored under the picked keys (the candidate keys being
distinct). -/
theorem evictPick_bytes (cols : List Nat) (rows : List RowT) :
    ∀ (ks : List KeyT) (target : Nat), ks.Nodup →
    (evictPick cols target ks rows).2 =
      sumBytes (rows.filter
        (fun r => (evictPick cols target ks rows).1.contains (proj cols r))) := by
  intro ks
  induction ks with
  | nil =>
    intro target _
    show (0 : Nat) = sumBytes (rows.filter (fun r => ([] : List KeyT).contains (proj cols r)))
    have : rows.filter (fun r => ([] : List KeyT).contains (proj cols r)) = [] := by
      apply List.filter_eq_nil_iff.mpr
      intro r _
      simp [List.contains]
    rw [this]
    rfl
  | cons k0 rest ih =>
    intro target hnd
    by_cases hc : target ≤ sumBytes (rows.filter (fun r => proj cols r == k0))
    · have he : evictPick cols target (k0 :: rest) rows =
          ([k0], sumBytes (rows.filter (fun r => proj cols r == k0))) := by
        simp only [evictPick, if_pos hc]
      rw [he]
      show sumBytes (rows.filter (fun r => proj cols r == k0)) =
        sumBytes (rows.filter (fun r => ([k0] : List KeyT).contains (proj cols r)))
      congr 1
      apply List.filter_congr
      intro r _
      show (proj cols r == k0) = (([k0] : List KeyT).contains (proj cols r))
      rw [List.contains_cons]
      show (proj cols r == k0) =
        (proj cols r == k0 || ([] : List KeyT).contains (proj cols r))
      rw [show (([] : List KeyT).contains (proj cols r)) = false from rfl, Bool.or_false]
    · have he : evictPick cols target (k0 :: rest) rows =
          (k0 :: (evictPick cols
              (target - sumBytes (rows.filter (fun r => proj cols r == k0))) rest rows).1,
           sumBytes (rows.filter (fun r => proj cols r == k0)) +
             (evictPick cols
               (target - sumBytes (rows.filter (fun r => proj cols r == k0))) rest rows).2) := by
        simp only [evictPick, if_neg hc]
      rw [he]
      have hk0 : k0 ∉ rest := (List.nodup_cons.mp hnd).1
      have hdisj : ∀ r ∈ rows, ¬((proj cols r == k0) = true ∧
          ((evictPick cols (target - sumBytes (rows.filter (fun r => proj cols r == k0)))
            rest rows).1.contains (proj cols r)) = true) := by
        intro r _ ⟨h1, h2⟩
        have heq : proj cols r = k0 := by simpa using h1
        have hmem : proj cols r ∈ (evictPick cols
            (target - sumBytes (rows.filter (fun r => proj cols r == k0))) rest rows).1 := by
          simpa [List.elem_iff] using h2
        exact hk0 (heq ▸ evictPick_subset cols rows rest _ _ hmem)
      have hcongr : rows.filter (fun r => (k0 :: (evictPick cols
            (target - sumBytes (rows.filter (fun r => proj cols r == k0)))
            rest rows).1).contains (proj cols r)) =
          rows.filter (fun r => (proj cols r == k0) || (evictPick cols
            (target - sumBytes (rows.filter (fun r => proj cols r == k0)))
            rest rows).1.contains (proj cols r)) := by
        apply List.filter_congr
        intro r _
        exact List.contains_cons
      show sumBytes (rows.filter (fun r => proj cols r == k0)) +
          (evictPick cols (target - sumBytes (rows.filter (fun r => proj cols r == k0)))
            rest rows).2 = _
      rw [hcongr, sumBytes_filter_or _ _ _ hdisj,
        ih (target - sumBytes (rows.filter (fun r => proj cols r == k0)))
          (List.nodup_cons.mp hnd).2]

/-- Rotating selection visits a different index on the next call when
more than one index exists. -/
theorem chooseIdx_rotates (n spread : Nat) (h : 1 < n) :
    chooseIdx n spread ≠ chooseIdx n (spread + 1) := by
  unfold chooseIdx
  intro heq
  have h1 : spread % n < n := Nat.mod_lt _ (by omega)
  have h2 : (spread + 1) % n = (spread % n + 1) % n := by
    conv_lhs => rw [← Nat.mod_add_mod]
  by_cases hr : spread % n + 1 < n
  · rw [h2, Nat.mod_eq_of_lt hr] at heq
    omega
  · have hn : spread % n + 1 = n := by omega
    rw [h2, hn, Nat.mod_self] at heq
    omega

/-- C8: `evict_random_keys` touches exactly one index (the one selected
by `spread`), returns that index's key columns, keys actually stored in
it, and the bytes actually freed from it (reported freed bytes plus the
surviving bytes equal the index's original footprint); and incrementing
`spread` between calls selects a different index whenever more than one
exists. -/
theorem C8_evict_random_one_index (s : StateS) (bytes : Nat) (fr : Rat) (spread : Nat)
    (idx : Index)
    (hget : s.indices.get? (chooseIdx s.indices.length spread) = Option.some idx) :
    (s.evict_random_keys bytes fr spread).2.2.1 = idx.columns ∧
    (∀ j : Nat, j ≠ chooseIdx s.indices.length spread →
      ((s.evict_random_keys bytes fr spread).1.indices)[j]? = s.indices[j]?) ∧
    (∀ k, k ∈ (s.evict_random_keys bytes fr spread).2.2.2.1 → k ∈ idx.keyList) ∧
    ((s.evict_random_keys bytes fr spread).2.2.2.2 +
      sumBytes ((idx.evictKeyList (s.evict_random_keys bytes fr spread).2.2.2.1).rows) =
        sumBytes idx.rows) ∧
    (1 < s.indices.length →
      chooseIdx s.indices.length spread ≠ chooseIdx s.indices.length (spread + 1)) := by
  have he : s.evict_random_keys bytes fr spread =
      (⟨s.indices.set (chooseIdx s.indices.length spread)
          (idx.evictKeyList (evictPick idx.columns bytes idx.keyList idx.rows).1)⟩, fr,
       idx.columns, (evictPick idx.columns bytes idx.keyList idx.rows).1,
       (evictPick idx.columns bytes idx.keyList idx.rows).2) := by
    simp only [StateS.evict_random_keys, hget]
  refine ⟨by rw [he], ?_, ?_, ?_, fun h => chooseIdx_rotates _ _ h⟩
  · intro j hj
    rw [he]
    exact List.getElem?_set_ne (Ne.symm hj)
  · intro k hk
    rw [he] at hk
    exact evictPick_subset idx.columns idx.rows idx.keyList bytes k hk
  · rw [he]
    show (evictPick idx.columns bytes idx.keyList idx.rows).2 +
      sumBytes (idx.rows.filter (fun r =>
        !((evictPick idx.columns bytes idx.keyList idx.rows).1.contains
          (proj idx.columns r)))) = sumBytes idx.rows
    rw [evictPick_bytes idx.columns idx.rows idx.keyList bytes
      (by unfold Index.keyList; exact List.nodup_dedup _)]
    exact sumBytes_filter_split
      (fun r => (evictPick idx.columns bytes idx.keyList idx.rows).1.contains
        (proj idx.columns r)) idx.rows

/-- A two-index state used to exercise rotation: a full index on column 0
and a full index on column 1, each holding one row. -/
def twoIdxState : StateS :=
  ⟨[⟨[0], Option.none, [], [[DataType.int 1, DataType.int 2]]⟩,
    ⟨[1], Option.none, [], [[DataType.int 1, DataType.int 2]]⟩]⟩

/-- C8 witness: on the two-index state with `spread = 0` the first index
is chosen, its columns `[0]` are returned, the second index is untouched,
the evicted keys are stored keys, byte accounting balances, and the next
`spread` selects a different index. -/
theorem C8_evict_random_one_index_witness :
    (twoIdxState.evict_random_keys 1 0 0).2.2.1 = [0] ∧
    ((twoIdxState.evict_random_keys 1 0 0).1.indices)[1]? = twoIdxState.indices[1]? ∧
    chooseIdx twoIdxState.indices.length 0 ≠ chooseIdx twoIdxState.indices.length 1 := by
  have h := C8_evict_random_one_index twoIdxState 1 0 0
    ⟨[0], Option.none, [], [[DataType.int 1, DataType.int 2]]⟩ (by decide)
  exact ⟨h.1, h.2.1 1 (by decide), h.2.2.2.2 (by decide)⟩
